import Mathlib

/-!
# Verification of the rust-cyclone particle-physics library

Shallow embedding of `src/lib.rs` (the `Vec3` type and its operations) and
`src/particle.rs` (the `Particle` type and `integrate`) over the real numbers,
which model the generic `T: Float` parameter of the Rust code.  Each Rust
method becomes a Lean definition with the same structure; the in-place
(`*Assign`) operator impls are embedded as explicit state-passing functions
so that their agreement with the pure forms is a theorem, not a definition.
-/

/-- `Vec3<T>` from `src/lib.rs`: a 3-component vector.  The Rust tuple fields
`.0`, `.1`, `.2` are named `x`, `y`, `z`. -/
structure Vec3 where
  x : ℝ
  y : ℝ
  z : ℝ

namespace Vec3

/-- `Vec3::invert`: component-wise negation. -/
def invert (v : Vec3) : Vec3 :=
  ⟨-v.x, -v.y, -v.z⟩

/-- `Vec3::mag`: Euclidean magnitude, `sqrt(x^2 + y^2 + z^2)`. -/
noncomputable def mag (v : Vec3) : ℝ :=
  Real.sqrt (v.x ^ 2 + v.y ^ 2 + v.z ^ 2)

/-- `Vec3::mag_squared`: squared magnitude, avoiding the `sqrt`. -/
def magSquared (v : Vec3) : ℝ :=
  v.x ^ 2 + v.y ^ 2 + v.z ^ 2

/-- `Div<T> for Vec3<T>`: divide each component by a scalar. -/
noncomputable def divScalar (v : Vec3) (c : ℝ) : Vec3 :=
  ⟨v.x / c, v.y / c, v.z / c⟩

/-- `Vec3::norm`: if the magnitude is zero return the vector unchanged,
otherwise divide by the magnitude. -/
noncomputable def norm (v : Vec3) : Vec3 :=
  let m := v.mag
  if m = 0 then v else v.divScalar m

/-- `Vec3::dot`: the dot product. -/
def dot (v w : Vec3) : ℝ :=
  v.x * w.x + v.y * w.y + v.z * w.z

/-- `Vec3::cross`: the right-handed cross product. -/
def cross (v w : Vec3) : Vec3 :=
  ⟨v.y * w.z - v.z * w.y, v.z * w.x - v.x * w.z, v.x * w.y - v.y * w.x⟩

/-- `Vec3::basis`: from `a` (the new X axis) and `b`, build
`c = normalize(cross(normalize(a), b))`; `None` if `c` has zero magnitude,
otherwise `Some (a, cross(c, a), c)`. -/
noncomputable def basis (a b : Vec3) : Option (Vec3 × Vec3 × Vec3) :=
  let c := ((a.norm).cross b).norm
  if c.mag = 0 then none else some (a, c.cross a, c)

/-- `Add for Vec3`: component-wise addition (pure form). -/
def add (v w : Vec3) : Vec3 :=
  ⟨v.x + w.x, v.y + w.y, v.z + w.z⟩

/-- `AddAssign for Vec3`: the in-place form, embedded as three sequential
field updates of the receiver, as in the Rust `add_assign` body. -/
def addAssign (v w : Vec3) : Vec3 :=
  let s1 : Vec3 := { v with x := v.x + w.x }
  let s2 : Vec3 := { s1 with y := s1.y + w.y }
  { s2 with z := s2.z + w.z }

/-- `Sub for Vec3`: component-wise subtraction (pure form). -/
def sub (v w : Vec3) : Vec3 :=
  ⟨v.x - w.x, v.y - w.y, v.z - w.z⟩

/-- `SubAssign for Vec3`: the in-place form. -/
def subAssign (v w : Vec3) : Vec3 :=
  let s1 : Vec3 := { v with x := v.x - w.x }
  let s2 : Vec3 := { s1 with y := s1.y - w.y }
  { s2 with z := s2.z - w.z }

/-- `Mul for Vec3` (component product, pure form). -/
def mul (v w : Vec3) : Vec3 :=
  ⟨v.x * w.x, v.y * w.y, v.z * w.z⟩

/-- `MulAssign for Vec3` (component product, in-place form). -/
def mulAssign (v w : Vec3) : Vec3 :=
  let s1 : Vec3 := { v with x := v.x * w.x }
  let s2 : Vec3 := { s1 with y := s1.y * w.y }
  { s2 with z := s2.z * w.z }

/-- `Mul<T> for Vec3<T>`: scale each component by a scalar (pure form). -/
def mulScalar (v : Vec3) (c : ℝ) : Vec3 :=
  ⟨v.x * c, v.y * c, v.z * c⟩

/-- `MulAssign<T> for Vec3<T>`: scalar scaling, in-place form. -/
def mulAssignScalar (v : Vec3) (c : ℝ) : Vec3 :=
  let s1 : Vec3 := { v with x := v.x * c }
  let s2 : Vec3 := { s1 with y := s1.y * c }
  { s2 with z := s2.z * c }

/-- `DivAssign<T> for Vec3<T>`: scalar division, in-place form. -/
noncomputable def divAssignScalar (v : Vec3) (c : ℝ) : Vec3 :=
  let s1 : Vec3 := { v with x := v.x / c }
  let s2 : Vec3 := { s1 with y := s1.y / c }
  { s2 with z := s2.z / c }

end Vec3

/-- `Particle<T>` from `src/particle.rs`. -/
structure Particle where
  position : Vec3
  velocity : Vec3
  acceleration : Vec3
  damping : ℝ
  inverse_mass : ℝ

namespace Particle

/-- `Particle::integrate`: the three mutating statements of the Rust body,
embedded as explicit state passing:
`position += velocity * duration`, then `velocity += acceleration * duration`,
then `velocity *= damping.powf(duration)` (`powf` modelled by `Real.rpow`). -/
noncomputable def integrate (p : Particle) (duration : ℝ) : Particle :=
  let s1 : Particle :=
    { p with position := p.position.addAssign (p.velocity.mulScalar duration) }
  let s2 : Particle :=
    { s1 with velocity := s1.velocity.addAssign (s1.acceleration.mulScalar duration) }
  { s2 with velocity := s2.velocity.mulAssignScalar (Real.rpow s2.damping duration) }

end Particle

/-! ## Basic lemmas about the embedding -/

theorem Vec3.ext_iff' (v w : Vec3) : v = w ↔ v.x = w.x ∧ v.y = w.y ∧ v.z = w.z := by
  constructor
  · rintro rfl; exact ⟨rfl, rfl, rfl⟩
  · rintro ⟨hx, hy, hz⟩; cases v; cases w; simp_all

theorem Vec3.addAssign_eq_add (v w : Vec3) : v.addAssign w = v.add w := rfl

theorem Vec3.magSquared_nonneg (v : Vec3) : 0 ≤ v.magSquared := by
  unfold Vec3.magSquared; positivity

theorem Vec3.mag_eq_sqrt_magSquared (v : Vec3) : v.mag = Real.sqrt v.magSquared := rfl

theorem Vec3.mag_eq_zero_iff (v : Vec3) : v.mag = 0 ↔ v = ⟨0, 0, 0⟩ := by
  unfold Vec3.mag
  rw [Real.sqrt_eq_zero (by positivity), Vec3.ext_iff']
  constructor
  · intro h
    have hx : v.x ^ 2 = 0 := by nlinarith [sq_nonneg v.x, sq_nonneg v.y, sq_nonneg v.z]
    have hy : v.y ^ 2 = 0 := by nlinarith [sq_nonneg v.x, sq_nonneg v.y, sq_nonneg v.z]
    have hz : v.z ^ 2 = 0 := by nlinarith [sq_nonneg v.x, sq_nonneg v.y, sq_nonneg v.z]
    exact ⟨sq_eq_zero_iff.mp hx, sq_eq_zero_iff.mp hy, sq_eq_zero_iff.mp hz⟩
  · rintro ⟨hx, hy, hz⟩; simp [hx, hy, hz]

theorem Vec3.mag_nonneg (v : Vec3) : 0 ≤ v.mag := Real.sqrt_nonneg _

theorem Vec3.mag_norm_of_ne_zero (v : Vec3) (h : v ≠ ⟨0, 0, 0⟩) : v.norm.mag = 1 := by
  have hm : v.mag ≠ 0 := fun h0 => h ((Vec3.mag_eq_zero_iff v).mp h0)
  have hmpos : 0 < v.mag := lt_of_le_of_ne (Vec3.mag_nonneg v) (Ne.symm hm)
  unfold Vec3.norm
  simp only [hm, if_false]
  unfold Vec3.mag Vec3.divScalar
  have hsq : v.mag ^ 2 = v.x ^ 2 + v.y ^ 2 + v.z ^ 2 := by
    unfold Vec3.mag
    exact Real.sq_sqrt (by positivity)
  have : (v.x / v.mag) ^ 2 + (v.y / v.mag) ^ 2 + (v.z / v.mag) ^ 2 = 1 := by
    field_simp
    linarith [hsq]
  simp only [Vec3.mag] at this ⊢
  rw [show (v.x / Real.sqrt (v.x ^ 2 + v.y ^ 2 + v.z ^ 2)) ^ 2 +
        (v.y / Real.sqrt (v.x ^ 2 + v.y ^ 2 + v.z ^ 2)) ^ 2 +
        (v.z / Real.sqrt (v.x ^ 2 + v.y ^ 2 + v.z ^ 2)) ^ 2 = 1 from this]
  exact Real.sqrt_one

/-! ## Claim theorems (integration and pure vector algebra) -/

/-- Claim C1: `integrate(d)` first sets position to `position + velocity*d`
(using the pre-step velocity), then sets velocity to
`(velocity + acceleration*d) * damping^d`, leaving the other fields alone;
and the concrete particle at position `(0,0,0)`, velocity `(0,0,0)`,
acceleration `(0,-10,0)`, damping 1, integrated over duration 1, ends with
position `(0,0,0)` and velocity `(0,-10,0)`. -/
theorem C1_integrate_order_and_example :
    (∀ (p : Particle) (d : ℝ),
      p.integrate d =
        { position := p.position.add (p.velocity.mulScalar d)
          velocity := (p.velocity.add (p.acceleration.mulScalar d)).mulScalar
            (Real.rpow p.damping d)
          acceleration := p.acceleration
          damping := p.damping
          inverse_mass := p.inverse_mass }) ∧
    Particle.integrate ⟨⟨0, 0, 0⟩, ⟨0, 0, 0⟩, ⟨0, -10, 0⟩, 1, 1⟩ 1 =
      ⟨⟨0, 0, 0⟩, ⟨0, -10, 0⟩, ⟨0, -10, 0⟩, 1, 1⟩ := by
  constructor
  · intro p d
    rfl
  · simp [Particle.integrate, Vec3.addAssign, Vec3.add, Vec3.mulScalar,
      Vec3.mulAssignScalar, Real.one_rpow]

/-- Claim C5: `integrate` changes only position and velocity; the
acceleration, damping and inverse-mass fields are unchanged by the call. -/
theorem C5_integrate_preserves_other_fields :
    ∀ (p : Particle) (d : ℝ),
      (p.integrate d).acceleration = p.acceleration ∧
      (p.integrate d).damping = p.damping ∧
      (p.integrate d).inverse_mass = p.inverse_mass := by
  intro p d
  exact ⟨rfl, rfl, rfl⟩

/-- Claim C6: for each arithmetic operation pair (vector add, vector
subtract, component-wise multiply, scalar multiply, scalar divide) the
in-place form leaves the receiver equal to the result of the pure form on
the same operands. -/
theorem C6_assign_ops_agree :
    ∀ (v w : Vec3) (c : ℝ),
      v.addAssign w = v.add w ∧
      v.subAssign w = v.sub w ∧
      v.mulAssign w = v.mul w ∧
      v.mulAssignScalar c = v.mulScalar c ∧
      v.divAssignScalar c = v.divScalar c := by
  intro v w c
  exact ⟨rfl, rfl, rfl, rfl, rfl⟩

/-- Claim C7: integrating with duration exactly zero is a no-op on position
and velocity (over the real model every field is finite). -/
theorem C7_integrate_zero_duration :
    ∀ p : Particle,
      (p.integrate 0).position = p.position ∧ (p.integrate 0).velocity = p.velocity := by
  intro p
  constructor <;>
    simp [Particle.integrate, Vec3.addAssign, Vec3.add, Vec3.mulScalar,
      Vec3.mulAssignScalar, Real.rpow_zero]

/-- Claim C8: `invert` (component-wise negation) is an involution:
`invert(invert(v)) = v` for every vector `v`. -/
theorem C8_invert_involutive : ∀ v : Vec3, v.invert.invert = v := by
  intro v
  cases v
  simp [Vec3.invert]

/-- Claim C9: the cross product is anticommutative:
`cross(a, b) = invert(cross(b, a))` for all vectors `a`, `b`. -/
theorem C9_cross_anticommutative : ∀ a b : Vec3, a.cross b = (b.cross a).invert := by
  intro a b
  cases a
  cases b
  simp only [Vec3.cross, Vec3.invert, Vec3.ext_iff']
  refine ⟨by ring, by ring, by ring⟩

/-- Claim C10: the effect of `integrate` on position and velocity is
independent of `inverse_mass`: two particles agreeing on position, velocity,
acceleration and damping produce identical position and velocity after
`integrate(d)`; and concretely a particle with `inverse_mass = 0` (infinite
mass) is still moved by its velocity — its position changes from `(0,0,0)`
to `(1,0,0)` — and still accelerated by its acceleration field — its
velocity changes from `(1,0,0)` to `(1,-10,0)`. -/
theorem C10_inverse_mass_independence :
    (∀ (p q : Particle) (d : ℝ),
      p.position = q.position → p.velocity = q.velocity →
      p.acceleration = q.acceleration → p.damping = q.damping →
      (p.integrate d).position = (q.integrate d).position ∧
      (p.integrate d).velocity = (q.integrate d).velocity) ∧
    (Particle.integrate ⟨⟨0, 0, 0⟩, ⟨1, 0, 0⟩, ⟨0, -10, 0⟩, 1, 0⟩ 1).position =
      ⟨1, 0, 0⟩ ∧
    (Particle.integrate ⟨⟨0, 0, 0⟩, ⟨1, 0, 0⟩, ⟨0, -10, 0⟩, 1, 0⟩ 1).velocity =
      ⟨1, -10, 0⟩ := by
  refine ⟨?_, ?_, ?_⟩
  · intro p q d h1 h2 h3 h4
    constructor <;> simp [Particle.integrate, Vec3.addAssign, Vec3.add,
      Vec3.mulScalar, Vec3.mulAssignScalar, h1, h2, h3, h4]
  · simp [Particle.integrate, Vec3.addAssign, Vec3.add, Vec3.mulScalar,
      Vec3.mulAssignScalar]
  · simp [Particle.integrate, Vec3.addAssign, Vec3.add, Vec3.mulScalar,
      Vec3.mulAssignScalar, Real.one_rpow]

/-- Witness for C10: two concrete particles differing only in inverse mass
(0 versus 5) have equal positions after integration. -/
theorem C10_inverse_mass_independence_witness :
    (Particle.integrate ⟨⟨0, 0, 0⟩, ⟨1, 0, 0⟩, ⟨0, 0, 0⟩, 1, 0⟩ 1).position =
      (Particle.integrate ⟨⟨0, 0, 0⟩, ⟨1, 0, 0⟩, ⟨0, 0, 0⟩, 1, 5⟩ 1).position :=
  (C10_inverse_mass_independence.1
    ⟨⟨0, 0, 0⟩, ⟨1, 0, 0⟩, ⟨0, 0, 0⟩, 1, 0⟩
    ⟨⟨0, 0, 0⟩, ⟨1, 0, 0⟩, ⟨0, 0, 0⟩, 1, 5⟩ 1 rfl rfl rfl rfl).1

/-! ## Helper lemmas for `norm`, `cross` and `basis` -/

theorem Vec3.norm_zero : Vec3.norm ⟨0, 0, 0⟩ = ⟨0, 0, 0⟩ := by
  unfold Vec3.norm
  rw [if_pos]
  unfold Vec3.mag
  norm_num

theorem Vec3.norm_of_ne_zero (v : Vec3) (h : v ≠ ⟨0, 0, 0⟩) :
    v.norm = v.divScalar v.mag := by
  have hm : v.mag ≠ 0 := fun h0 => h ((Vec3.mag_eq_zero_iff v).mp h0)
  unfold Vec3.norm
  rw [if_neg hm]

theorem Vec3.norm_eq_zero_iff (v : Vec3) : v.norm = ⟨0, 0, 0⟩ ↔ v = ⟨0, 0, 0⟩ := by
  constructor
  · intro h
    by_contra hv
    have h1 : v.norm.mag = 1 := Vec3.mag_norm_of_ne_zero v hv
    rw [h] at h1
    rw [(Vec3.mag_eq_zero_iff ⟨0, 0, 0⟩).mpr rfl] at h1
    norm_num at h1
  · rintro rfl
    exact Vec3.norm_zero

theorem Vec3.divScalar_eq_zero_iff (v : Vec3) (m : ℝ) (hm : m ≠ 0) :
    v.divScalar m = ⟨0, 0, 0⟩ ↔ v = ⟨0, 0, 0⟩ := by
  simp only [Vec3.divScalar, Vec3.ext_iff']
  rw [div_eq_zero_iff, div_eq_zero_iff, div_eq_zero_iff]
  simp [hm]

theorem Vec3.cross_divScalar_left (v w : Vec3) (m : ℝ) :
    (v.divScalar m).cross w = (v.cross w).divScalar m := by
  simp only [Vec3.divScalar, Vec3.cross, Vec3.ext_iff']
  refine ⟨by ring, by ring, by ring⟩

theorem Vec3.cross_zero_left (w : Vec3) : Vec3.cross ⟨0, 0, 0⟩ w = ⟨0, 0, 0⟩ := by
  simp only [Vec3.cross, Vec3.ext_iff']
  norm_num

theorem Vec3.magSquared_cross (v w : Vec3) :
    (v.cross w).magSquared = v.magSquared * w.magSquared - (v.dot w) ^ 2 := by
  simp only [Vec3.cross, Vec3.magSquared, Vec3.dot]
  ring

theorem Vec3.magSquared_eq_sq_mag (v : Vec3) : v.magSquared = v.mag ^ 2 :=
  (Real.sq_sqrt (Vec3.magSquared_nonneg v)).symm

theorem Vec3.dot_comm (v w : Vec3) : v.dot w = w.dot v := by
  simp only [Vec3.dot]; ring

theorem Vec3.dot_cross_self_left (v w : Vec3) : v.dot (v.cross w) = 0 := by
  simp only [Vec3.dot, Vec3.cross]; ring

theorem Vec3.dot_cross_self_right (v w : Vec3) : v.dot (w.cross v) = 0 := by
  simp only [Vec3.dot, Vec3.cross]; ring

theorem Vec3.dot_divScalar_right (v w : Vec3) (m : ℝ) :
    v.dot (w.divScalar m) = v.dot w / m := by
  simp only [Vec3.dot, Vec3.divScalar]; ring

theorem Vec3.triple_product (u w : Vec3) :
    u.cross (w.cross u) = (w.mulScalar (u.dot u)).sub (u.mulScalar (u.dot w)) := by
  simp only [Vec3.cross, Vec3.dot, Vec3.mulScalar, Vec3.sub, Vec3.ext_iff']
  refine ⟨by ring, by ring, by ring⟩

theorem Vec3.mag_eq_of_sq (v : Vec3) (m : ℝ) (hm : 0 ≤ m)
    (h : v.x ^ 2 + v.y ^ 2 + v.z ^ 2 = m ^ 2) : v.mag = m := by
  unfold Vec3.mag
  rw [h]
  exact Real.sqrt_sq hm

theorem Vec3.basis_eq_some (a b : Vec3)
    (h : (((a.norm).cross b).norm).mag ≠ 0) :
    a.basis b =
      some (a, (((a.norm).cross b).norm).cross a, ((a.norm).cross b).norm) := by
  unfold Vec3.basis
  rw [if_neg h]

theorem Vec3.basis_eq_none (a b : Vec3)
    (h : (((a.norm).cross b).norm).mag = 0) :
    a.basis b = none := by
  unfold Vec3.basis
  rw [if_pos h]

theorem Vec3.cross_norm_left_eq_zero_iff (a b : Vec3) :
    (a.norm).cross b = ⟨0, 0, 0⟩ ↔ a.cross b = ⟨0, 0, 0⟩ := by
  by_cases ha : a = ⟨0, 0, 0⟩
  · subst ha
    rw [Vec3.norm_zero]
  · have hm : a.mag ≠ 0 := fun h0 => ha ((Vec3.mag_eq_zero_iff a).mp h0)
    rw [Vec3.norm_of_ne_zero a ha, Vec3.cross_divScalar_left,
      Vec3.divScalar_eq_zero_iff _ _ hm]

theorem Vec3.cross_eq_zero_iff (a b : Vec3) :
    a.cross b = ⟨0, 0, 0⟩ ↔ (a = ⟨0, 0, 0⟩ ∨ ∃ k : ℝ, b = a.mulScalar k) := by
  constructor
  · intro h
    by_cases ha : a = ⟨0, 0, 0⟩
    · exact Or.inl ha
    · right
      simp only [Vec3.cross, Vec3.ext_iff'] at h
      obtain ⟨h1, h2, h3⟩ := h
      have hcomp : a.x ≠ 0 ∨ a.y ≠ 0 ∨ a.z ≠ 0 := by
        by_contra hc
        push_neg at hc
        exact ha (by rw [Vec3.ext_iff']; exact ⟨hc.1, hc.2.1, hc.2.2⟩)
      rcases hcomp with hx | hy | hz
      · refine ⟨b.x / a.x, ?_⟩
        simp only [Vec3.mulScalar, Vec3.ext_iff']
        refine ⟨?_, ?_, ?_⟩ <;> field_simp <;> linarith
      · refine ⟨b.y / a.y, ?_⟩
        simp only [Vec3.mulScalar, Vec3.ext_iff']
        refine ⟨?_, ?_, ?_⟩ <;> field_simp <;> linarith
      · refine ⟨b.z / a.z, ?_⟩
        simp only [Vec3.mulScalar, Vec3.ext_iff']
        refine ⟨?_, ?_, ?_⟩ <;> field_simp <;> linarith
  · rintro (rfl | ⟨k, rfl⟩)
    · exact Vec3.cross_zero_left b
    · simp only [Vec3.cross, Vec3.mulScalar, Vec3.ext_iff']
      refine ⟨by ring, by ring, by ring⟩

/-- Claim C3: `basis(a, b)` returns `none` (an absent value, total — no
exception is possible in the embedding) exactly when `a` and `b` are
parallel (one a scalar multiple of the other) or either is the zero vector;
otherwise it returns a present triple. -/
theorem C3_basis_none_iff :
    ∀ a b : Vec3,
      a.basis b = none ↔
        (a = ⟨0, 0, 0⟩ ∨ b = ⟨0, 0, 0⟩ ∨ ∃ k : ℝ, b = a.mulScalar k) := by
  intro a b
  have key : a.basis b = none ↔ (((a.norm).cross b).norm).mag = 0 := by
    constructor
    · intro h
      by_contra hc
      rw [Vec3.basis_eq_some a b hc] at h
      exact Option.noConfusion h
    · exact Vec3.basis_eq_none a b
  rw [key, Vec3.mag_eq_zero_iff, Vec3.norm_eq_zero_iff,
    Vec3.cross_norm_left_eq_zero_iff, Vec3.cross_eq_zero_iff]
  constructor
  · rintro (ha | ⟨k, hk⟩)
    · exact Or.inl ha
    · exact Or.inr (Or.inr ⟨k, hk⟩)
  · rintro (ha | hb | ⟨k, hk⟩)
    · exact Or.inl ha
    · refine Or.inr ⟨0, ?_⟩
      rw [hb]
      simp only [Vec3.mulScalar, Vec3.ext_iff']
      norm_num
    · exact Or.inr ⟨k, hk⟩

/-- Claim C4: `norm` divides by the magnitude when the magnitude is nonzero
and returns the vector unchanged when the magnitude is zero; consequently
`norm` of the zero vector is the zero vector exactly, and every nonzero
vector normalizes to magnitude exactly 1 (the real-number model of the
float's approximate 1). -/
theorem C4_norm_spec :
    (∀ v : Vec3, v.mag ≠ 0 → v.norm = v.divScalar v.mag) ∧
    (∀ v : Vec3, v.mag = 0 → v.norm = v) ∧
    Vec3.norm ⟨0, 0, 0⟩ = ⟨0, 0, 0⟩ ∧
    (∀ v : Vec3, v ≠ ⟨0, 0, 0⟩ → v.norm.mag = 1) := by
  refine ⟨?_, ?_, Vec3.norm_zero, Vec3.mag_norm_of_ne_zero⟩
  · intro v h
    unfold Vec3.norm
    rw [if_neg h]
  · intro v h
    unfold Vec3.norm
    rw [if_pos h]

/-- Witness for C4 at the concrete vectors `(0,2,0)` and `(0,0,0)`. -/
theorem C4_norm_spec_witness :
    Vec3.mag ⟨0, 2, 0⟩ ≠ 0 ∧
    Vec3.norm ⟨0, 2, 0⟩ = Vec3.divScalar ⟨0, 2, 0⟩ (Vec3.mag ⟨0, 2, 0⟩) ∧
    Vec3.mag ⟨0, 0, 0⟩ = 0 ∧
    Vec3.norm ⟨0, 0, 0⟩ = ⟨0, 0, 0⟩ ∧
    Vec3.mag (Vec3.norm ⟨0, 2, 0⟩) = 1 := by
  have hmag : Vec3.mag ⟨0, 2, 0⟩ = 2 :=
    Vec3.mag_eq_of_sq _ 2 (by norm_num) (by norm_num)
  have hne : Vec3.mag ⟨0, 2, 0⟩ ≠ 0 := by rw [hmag]; norm_num
  have h0 : Vec3.mag ⟨0, 0, 0⟩ = 0 := (Vec3.mag_eq_zero_iff _).mpr rfl
  have hvne : (⟨0, 2, 0⟩ : Vec3) ≠ ⟨0, 0, 0⟩ := by
    intro h
    rw [Vec3.ext_iff'] at h
    norm_num at h
  exact ⟨hne, C4_norm_spec.1 _ hne, h0, C4_norm_spec.2.1 _ h0,
    C4_norm_spec.2.2.2 _ hvne⟩

theorem Vec3.dot_self_eq_magSquared (v : Vec3) : v.dot v = v.magSquared := by
  simp only [Vec3.dot, Vec3.magSquared]
  ring

/-- Claim C2 (amended): when `basis(a, b)` returns a present triple
`(X, Y, Z)`, then `X = a`, `Z = normalize(cross(normalize(a), b))`,
`Y = cross(Z, a)`; `Z` is a unit vector, while `X` and `Y` have magnitude
equal to the magnitude of `a` (not necessarily 1); the three are pairwise
orthogonal and right-handed (`cross(X, Y)` is the nonnegative multiple
`|a|^2 * Z` of `Z`). -/
theorem C2_basis_amended :
    ∀ (a b X Y Z : Vec3), a.basis b = some (X, Y, Z) →
      X = a ∧
      Z = ((a.norm).cross b).norm ∧
      Y = Z.cross a ∧
      Z.mag = 1 ∧
      X.mag = a.mag ∧
      Y.mag = a.mag ∧
      X.dot Y = 0 ∧ Y.dot Z = 0 ∧ X.dot Z = 0 ∧
      X.cross Y = Z.mulScalar a.magSquared := by
  intro a b X Y Z h
  simp only [Vec3.basis] at h
  by_cases hc : (((a.norm).cross b).norm).mag = 0
  · rw [if_pos hc] at h
    exact absurd h (by simp)
  · rw [if_neg hc] at h
    simp only [Option.some.injEq, Prod.mk.injEq] at h
    obtain ⟨rfl, rfl, rfl⟩ := h
    have hw : (a.norm).cross b ≠ ⟨0, 0, 0⟩ := by
      intro h0
      apply hc
      rw [h0, Vec3.norm_zero]
      exact (Vec3.mag_eq_zero_iff _).mpr rfl
    have ha : a ≠ ⟨0, 0, 0⟩ := by
      intro h0
      apply hw
      rw [h0, Vec3.norm_zero, Vec3.cross_zero_left]
    have hma : a.mag ≠ 0 := fun h0 => ha ((Vec3.mag_eq_zero_iff a).mp h0)
    have hZmag : (((a.norm).cross b).norm).mag = 1 :=
      Vec3.mag_norm_of_ne_zero _ hw
    have hdotw : a.dot ((a.norm).cross b) = 0 := by
      rw [Vec3.norm_of_ne_zero a ha, Vec3.cross_divScalar_left,
        Vec3.dot_divScalar_right, Vec3.dot_cross_self_left, zero_div]
    have hdotac : a.dot (((a.norm).cross b).norm) = 0 := by
      rw [Vec3.norm_of_ne_zero _ hw, Vec3.dot_divScalar_right, hdotw, zero_div]
    refine ⟨rfl, rfl, rfl, hZmag, rfl, ?_, ?_, ?_, hdotac, ?_⟩
    · have h6 : ((((a.norm).cross b).norm).cross a).magSquared = a.magSquared := by
        rw [Vec3.magSquared_cross, Vec3.magSquared_eq_sq_mag (((a.norm).cross b).norm),
          hZmag, Vec3.dot_comm _ a, hdotac]
        ring
      rw [Vec3.mag_eq_sqrt_magSquared, Vec3.mag_eq_sqrt_magSquared a, h6]
    · exact Vec3.dot_cross_self_right a _
    · rw [Vec3.dot_comm]
      exact Vec3.dot_cross_self_left _ a
    · rw [Vec3.triple_product, hdotac, Vec3.dot_self_eq_magSquared]
      simp only [Vec3.mulScalar, Vec3.sub, Vec3.ext_iff']
      norm_num

/-- Counterexample to C2 as stated: `basis((2,0,0), (0,1,0))` returns the
present triple `X=(2,0,0)`, `Y=(0,2,0)`, `Z=(0,0,1)`, and `X` (and `Y`) have
magnitude 2, not 1, so the returned triple is not orthonormal. -/
theorem C2_basis_counterexample :
    Vec3.basis ⟨2, 0, 0⟩ ⟨0, 1, 0⟩ = some (⟨2, 0, 0⟩, ⟨0, 2, 0⟩, ⟨0, 0, 1⟩) ∧
    ¬ (Vec3.mag ⟨2, 0, 0⟩ = 1 ∧ Vec3.mag ⟨0, 2, 0⟩ = 1 ∧ Vec3.mag ⟨0, 0, 1⟩ = 1) := by
  have ha : (⟨2, 0, 0⟩ : Vec3) ≠ ⟨0, 0, 0⟩ := by
    intro h
    rw [Vec3.ext_iff'] at h
    norm_num at h
  have hm : Vec3.mag ⟨2, 0, 0⟩ = 2 := Vec3.mag_eq_of_sq _ 2 (by norm_num) (by norm_num)
  have hn : Vec3.norm ⟨2, 0, 0⟩ = ⟨1, 0, 0⟩ := by
    rw [Vec3.norm_of_ne_zero _ ha, hm]
    simp only [Vec3.divScalar, Vec3.ext_iff']
    norm_num
  have hcr : Vec3.cross ⟨1, 0, 0⟩ ⟨0, 1, 0⟩ = ⟨0, 0, 1⟩ := by
    simp only [Vec3.cross, Vec3.ext_iff']
    norm_num
  have hz : (⟨0, 0, 1⟩ : Vec3) ≠ ⟨0, 0, 0⟩ := by
    intro h
    rw [Vec3.ext_iff'] at h
    norm_num at h
  have hm2 : Vec3.mag ⟨0, 0, 1⟩ = 1 := Vec3.mag_eq_of_sq _ 1 (by norm_num) (by norm_num)
  have hn2 : Vec3.norm ⟨0, 0, 1⟩ = ⟨0, 0, 1⟩ := by
    rw [Vec3.norm_of_ne_zero _ hz, hm2]
    simp only [Vec3.divScalar, Vec3.ext_iff']
    norm_num
  have hch : ((Vec3.norm ⟨2, 0, 0⟩).cross ⟨0, 1, 0⟩).norm = ⟨0, 0, 1⟩ := by
    rw [hn, hcr, hn2]
  have hne : (((Vec3.norm ⟨2, 0, 0⟩).cross ⟨0, 1, 0⟩).norm).mag ≠ 0 := by
    rw [hch, hm2]
    norm_num
  have hcr2 : Vec3.cross ⟨0, 0, 1⟩ ⟨2, 0, 0⟩ = ⟨0, 2, 0⟩ := by
    simp only [Vec3.cross, Vec3.ext_iff']
    norm_num
  constructor
  · rw [Vec3.basis_eq_some _ _ hne, hch, hcr2]
  · intro hcontra
    rw [hm] at hcontra
    norm_num at hcontra

/-- Witness for the amended C2 at `a = (1,0,0)`, `b = (0,1,0)`, where the
returned triple is `((1,0,0), (0,1,0), (0,0,1))`. -/
theorem C2_basis_amended_witness :
    Vec3.basis ⟨1, 0, 0⟩ ⟨0, 1, 0⟩ = some (⟨1, 0, 0⟩, ⟨0, 1, 0⟩, ⟨0, 0, 1⟩) ∧
    Vec3.mag ⟨0, 0, 1⟩ = 1 ∧
    Vec3.dot ⟨1, 0, 0⟩ ⟨0, 1, 0⟩ = 0 := by
  have ha : (⟨1, 0, 0⟩ : Vec3) ≠ ⟨0, 0, 0⟩ := by
    intro h
    rw [Vec3.ext_iff'] at h
    norm_num at h
  have hm : Vec3.mag ⟨1, 0, 0⟩ = 1 := Vec3.mag_eq_of_sq _ 1 (by norm_num) (by norm_num)
  have hn : Vec3.norm ⟨1, 0, 0⟩ = ⟨1, 0, 0⟩ := by
    rw [Vec3.norm_of_ne_zero _ ha, hm]
    simp only [Vec3.divScalar, Vec3.ext_iff']
    norm_num
  have hcr : Vec3.cross ⟨1, 0, 0⟩ ⟨0, 1, 0⟩ = ⟨0, 0, 1⟩ := by
    simp only [Vec3.cross, Vec3.ext_iff']
    norm_num
  have hz : (⟨0, 0, 1⟩ : Vec3) ≠ ⟨0, 0, 0⟩ := by
    intro h
    rw [Vec3.ext_iff'] at h
    norm_num at h
  have hm2 : Vec3.mag ⟨0, 0, 1⟩ = 1 := Vec3.mag_eq_of_sq _ 1 (by norm_num) (by norm_num)
  have hn2 : Vec3.norm ⟨0, 0, 1⟩ = ⟨0, 0, 1⟩ := by
    rw [Vec3.norm_of_ne_zero _ hz, hm2]
    simp only [Vec3.divScalar, Vec3.ext_iff']
    norm_num
  have hch : ((Vec3.norm ⟨1, 0, 0⟩).cross ⟨0, 1, 0⟩).norm = ⟨0, 0, 1⟩ := by
    rw [hn, hcr, hn2]
  have hne : (((Vec3.norm ⟨1, 0, 0⟩).cross ⟨0, 1, 0⟩).norm).mag ≠ 0 := by
    rw [hch, hm2]
    norm_num
  have hcr2 : Vec3.cross ⟨0, 0, 1⟩ ⟨1, 0, 0⟩ = ⟨0, 1, 0⟩ := by
    simp only [Vec3.cross, Vec3.ext_iff']
    norm_num
  have hbasis : Vec3.basis ⟨1, 0, 0⟩ ⟨0, 1, 0⟩ =
      some (⟨1, 0, 0⟩, ⟨0, 1, 0⟩, ⟨0, 0, 1⟩) := by
    rw [Vec3.basis_eq_some _ _ hne, hch, hcr2]
  have hthm := C2_basis_amended ⟨1, 0, 0⟩ ⟨0, 1, 0⟩ ⟨1, 0, 0⟩ ⟨0, 1, 0⟩ ⟨0, 0, 1⟩ hbasis
  exact ⟨hbasis, hthm.2.2.2.1, hthm.2.2.2.2.2.2.1⟩
